import Mathlib

/-!
# Verification of `mesh-level.py`

A shallow embedding of the mesh-level heightmap generator in Lean 4, together
with theorems settling the frozen claims about its specification.

Modelling conventions:
* Python `int` values are `ℤ`; Python `float` arithmetic on values parsed from
  text is modelled exactly over `ℚ` (every quantity the embedded code computes
  is a rational of small height, where float rounding plays no role in any of
  the claims settled here).
* Python true division `/` raising `ZeroDivisionError` is modelled by
  `pyDiv : ℚ → ℚ → Option ℚ`.
* Python `round(x, n)` (round-half-to-even) is modelled by `pyRound`.
* The unbounded `while` loop of `selectMeshInterval` is modelled with explicit
  fuel returning `Option`, so that termination is a provable statement rather
  than an artifact of the embedding: `none` means the fuel ran out before the
  loop condition became false.
* The RBF fit/evaluate engine is `scipy.interpolate.Rbf`, an external library
  whose code is not part of this repository; it is modelled from the spec over
  `ℝ` (see the `Modelled from the spec:` doc comments below).
-/

namespace MeshLevel

/-- Python true division on rationals: `a / b`, raising (`none`) on a zero
divisor, as Python raises `ZeroDivisionError`. -/
def pyDiv (a b : ℚ) : Option ℚ := if b = 0 then none else some (a / b)

/-- Python `round` to an integer: round-half-to-even (banker's rounding). -/
def pyRoundInt (q : ℚ) : ℤ :=
  let f := ⌊q⌋
  let r := q - f
  if r < 1/2 then f else if 1/2 < r then f + 1 else if f % 2 = 0 then f else f + 1

/-- Python `round(q, nd)`: round to `nd` decimal places, half to even. -/
def pyRound (nd : ℕ) (q : ℚ) : ℚ := (pyRoundInt (q * 10 ^ nd) : ℚ) / 10 ^ nd

/-! ## The grid-resolution selector (`selectMeshInterval`, src lines 100-114)

The Python source:
```
def selectMeshInterval(xMin, xMax, yMin, yMax, maxSamplePoints):
    xSideLength = xMax - xMin
    ySideLength = yMax - yMin
    u = v = x = y = 2
    while (u * v) <= maxSamplePoints:
        x = u
        y = v
        if (xSideLength / x) > (ySideLength / y):
            u += 1
        else:
            v += 1
    return (x, y)
```
The spacing comparison divides integer side lengths by the current counts;
it is modelled exactly over `ℚ`. -/

/-- One fuel-indexed unfolding of the `while` loop of `selectMeshInterval`.
`u v` are the running counts, `x y` the counts saved at the top of the last
iteration that ran; `none` means the fuel was exhausted while the loop
condition still held. -/
def meshLoopGo (xSide ySide : ℚ) (maxSamplePoints : ℤ) :
    ℕ → ℕ → ℕ → ℕ → ℕ → Option (ℕ × ℕ)
  | 0, u, v, x, y =>
      if ((u * v : ℕ) : ℤ) ≤ maxSamplePoints then none else some (x, y)
  | fuel + 1, u, v, x, y =>
      if ((u * v : ℕ) : ℤ) ≤ maxSamplePoints then
        if xSide / (u : ℚ) > ySide / (v : ℚ) then
          meshLoopGo xSide ySide maxSamplePoints fuel (u + 1) v u v
        else
          meshLoopGo xSide ySide maxSamplePoints fuel u (v + 1) u v
      else some (x, y)

/-- `selectMeshInterval` from the source: both counts start at 2 and the side
with the wider spacing gains a point until the budget is exhausted.  The fuel
`(maxSamplePoints - 3).toNat + 1` is enough for the loop to reach its exit
condition (proved below), so the `Option` is always `some`. -/
def selectMeshInterval (xMin xMax yMin yMax maxSamplePoints : ℤ) : Option (ℕ × ℕ) :=
  meshLoopGo ((xMax : ℚ) - (xMin : ℚ)) ((yMax : ℚ) - (yMin : ℚ)) maxSamplePoints
    ((maxSamplePoints - 3).toNat + 1) 2 2 2 2

/-- The loop reaches its exit condition whenever the fuel exceeds
`maxSamplePoints - u * v`: each iteration increments one count, which raises
the product `u * v` by at least the other count (which stays `≥ 1`). -/
theorem meshLoopGo_isSome (xSide ySide : ℚ) (maxSamplePoints : ℤ) :
    ∀ (fuel u v x y : ℕ), 1 ≤ u → 1 ≤ v →
      maxSamplePoints < (u : ℤ) * v + fuel →
      (meshLoopGo xSide ySide maxSamplePoints fuel u v x y).isSome = true := by
  intro fuel
  induction fuel with
  | zero =>
      intro u v x y hu hv hlt
      rw [meshLoopGo]
      rw [if_neg]
      · rfl
      · push_cast
        omega
  | succ f ih =>
      intro u v x y hu hv hlt
      rw [meshLoopGo]
      by_cases hcond : ((u * v : ℕ) : ℤ) ≤ maxSamplePoints
      · rw [if_pos hcond]
        have hv' : (1 : ℤ) ≤ (v : ℤ) := by exact_mod_cast hv
        have hu' : (1 : ℤ) ≤ (u : ℤ) := by exact_mod_cast hu
        by_cases hsp : xSide / (u : ℚ) > ySide / (v : ℚ)
        · rw [if_pos hsp]
          apply ih (u + 1) v u v (by omega) hv
          have : ((u : ℤ) + 1) * v = (u : ℤ) * v + v := by ring
          push_cast
          push_cast at hlt
          nlinarith
        · rw [if_neg hsp]
          apply ih u (v + 1) u v hu (by omega)
          push_cast
          push_cast at hlt
          nlinarith
      · rw [if_neg hcond]
        rfl

/-- Whatever state the loop is entered in, a `some (a, b)` result has both
counts `≥ 2` and either `a * b ≤ maxSamplePoints` or `(a, b)` is the saved
pair the loop was entered with. -/
theorem meshLoopGo_bounds (xSide ySide : ℚ) (maxSamplePoints : ℤ) :
    ∀ (fuel u v x y a b : ℕ), 2 ≤ u → 2 ≤ v → 2 ≤ x → 2 ≤ y →
      meshLoopGo xSide ySide maxSamplePoints fuel u v x y = some (a, b) →
      2 ≤ a ∧ 2 ≤ b ∧ (((a * b : ℕ) : ℤ) ≤ maxSamplePoints ∨ (a, b) = (x, y)) := by
  intro fuel
  induction fuel with
  | zero =>
      intro u v x y a b hu hv hx hy heq
      rw [meshLoopGo] at heq
      by_cases hcond : ((u * v : ℕ) : ℤ) ≤ maxSamplePoints
      · rw [if_pos hcond] at heq
        exact absurd heq (by simp)
      · rw [if_neg hcond] at heq
        obtain ⟨rfl, rfl⟩ : x = a ∧ y = b := by
          simpa [Prod.ext_iff] using heq
        exact ⟨hx, hy, Or.inr rfl⟩
  | succ f ih =>
      intro u v x y a b hu hv hx hy heq
      rw [meshLoopGo] at heq
      by_cases hcond : ((u * v : ℕ) : ℤ) ≤ maxSamplePoints
      · rw [if_pos hcond] at heq
        by_cases hsp : xSide / (u : ℚ) > ySide / (v : ℚ)
        · rw [if_pos hsp] at heq
          rcases ih (u + 1) v u v a b (by omega) hv hu hv heq with ⟨ha, hb, hor⟩
          refine ⟨ha, hb, Or.inl ?_⟩
          rcases hor with h | h
          · exact h
          · obtain ⟨rfl, rfl⟩ : a = u ∧ b = v := by simpa [Prod.ext_iff] using h
            exact hcond
        · rw [if_neg hsp] at heq
          rcases ih u (v + 1) u v a b hu (by omega) hu hv heq with ⟨ha, hb, hor⟩
          refine ⟨ha, hb, Or.inl ?_⟩
          rcases hor with h | h
          · exact h
          · obtain ⟨rfl, rfl⟩ : a = u ∧ b = v := by simpa [Prod.ext_iff] using h
            exact hcond
      · rw [if_neg hcond] at heq
        obtain ⟨rfl, rfl⟩ : x = a ∧ y = b := by
          simpa [Prod.ext_iff] using heq
        exact ⟨hx, hy, Or.inr rfl⟩

/-- The fuel supplied by `selectMeshInterval` is always sufficient. -/
theorem selectMeshInterval_isSome (xMin xMax yMin yMax maxSamplePoints : ℤ) :
    (selectMeshInterval xMin xMax yMin yMax maxSamplePoints).isSome = true := by
  apply meshLoopGo_isSome _ _ _ _ 2 2 2 2 (by norm_num) (by norm_num)
  have : maxSamplePoints - 3 ≤ ((maxSamplePoints - 3).toNat : ℤ) := Int.self_le_toNat _
  push_cast
  omega

/-- C4: the selector returns counts `≥ 2` on both axes; the product stays
within the budget whenever `maxSamplePoints ≥ 4`, and for a budget below 4
the result is exactly `(2, 2)`. -/
theorem selectMeshInterval_bounds (xMin xMax yMin yMax maxSamplePoints : ℤ) :
    ∃ a b : ℕ, selectMeshInterval xMin xMax yMin yMax maxSamplePoints = some (a, b) ∧
      2 ≤ a ∧ 2 ≤ b ∧
      (4 ≤ maxSamplePoints → ((a * b : ℕ) : ℤ) ≤ maxSamplePoints) ∧
      (maxSamplePoints < 4 → (a, b) = (2, 2)) := by
  have hs := selectMeshInterval_isSome xMin xMax yMin yMax maxSamplePoints
  obtain ⟨⟨a, b⟩, heq⟩ := Option.isSome_iff_exists.mp hs
  refine ⟨a, b, heq, ?_⟩
  rcases meshLoopGo_bounds _ _ _ _ 2 2 2 2 a b (by norm_num) (by norm_num)
      (by norm_num) (by norm_num) heq with ⟨ha, hb, hor⟩
  refine ⟨ha, hb, ?_, ?_⟩
  · intro h4
    rcases hor with h | h
    · exact h
    · obtain ⟨rfl, rfl⟩ : a = 2 ∧ b = 2 := by simpa [Prod.ext_iff] using h
      exact_mod_cast h4
  · intro h4
    unfold selectMeshInterval at heq
    rw [meshLoopGo, if_neg (by push_cast; omega)] at heq
    simpa [Prod.ext_iff, eq_comm] using heq

/-- Witness for `selectMeshInterval_bounds` at the default budget 441. -/
theorem selectMeshInterval_bounds_witness :
    ∃ a b : ℕ, selectMeshInterval 0 100 0 100 441 = some (a, b) ∧
      2 ≤ a ∧ 2 ≤ b ∧
      (4 ≤ (441 : ℤ) → ((a * b : ℕ) : ℤ) ≤ 441) ∧
      ((441 : ℤ) < 4 → (a, b) = (2, 2)) :=
  selectMeshInterval_bounds 0 100 0 100 441

/-- C8: the loop of `selectMeshInterval` terminates for every pair of extents
and every integer budget: as soon as the fuel exceeds `maxSamplePoints - 4`
the loop reaches its exit condition (each iteration strictly grows the product
of the counts), and the fuel chosen by `selectMeshInterval` always suffices. -/
theorem selectMeshInterval_terminates (xMin xMax yMin yMax maxSamplePoints : ℤ) :
    (∀ fuel : ℕ, maxSamplePoints < 4 + (fuel : ℤ) →
      (meshLoopGo ((xMax : ℚ) - (xMin : ℚ)) ((yMax : ℚ) - (yMin : ℚ)) maxSamplePoints
        fuel 2 2 2 2).isSome = true) ∧
    (selectMeshInterval xMin xMax yMin yMax maxSamplePoints).isSome = true := by
  constructor
  · intro fuel hfuel
    apply meshLoopGo_isSome _ _ _ fuel 2 2 2 2 (by norm_num) (by norm_num)
    push_cast
    omega
  · exact selectMeshInterval_isSome xMin xMax yMin yMax maxSamplePoints

/-- Witness for `selectMeshInterval_terminates` at concrete arguments. -/
theorem selectMeshInterval_terminates_witness :
    (meshLoopGo (100 - 0 : ℚ) (100 - 0 : ℚ) 6 10 2 2 2 2).isSome = true ∧
    (selectMeshInterval 0 100 0 100 6).isSome = true := by
  refine ⟨?_, (selectMeshInterval_terminates 0 100 0 100 6).2⟩
  have h := (selectMeshInterval_terminates 0 100 0 100 6).1 10 (by norm_num)
  simpa using h

/-- C5: a loop step with the budget not yet exhausted increments the count of
the axis with the strictly larger per-interval spacing, using a strict `>`
comparison, so equal spacings increment the y count; concretely, square
extents of side 100 with a budget of 6 give `(2, 3)`. -/
theorem meshLoopGo_tiebreak (xSide ySide : ℚ) (maxSamplePoints : ℤ)
    (fuel u v x y : ℕ) (hcond : ((u * v : ℕ) : ℤ) ≤ maxSamplePoints) :
    (meshLoopGo xSide ySide maxSamplePoints (fuel + 1) u v x y =
      if xSide / (u : ℚ) > ySide / (v : ℚ) then
        meshLoopGo xSide ySide maxSamplePoints fuel (u + 1) v u v
      else meshLoopGo xSide ySide maxSamplePoints fuel u (v + 1) u v) ∧
    (xSide / (u : ℚ) = ySide / (v : ℚ) →
      meshLoopGo xSide ySide maxSamplePoints (fuel + 1) u v x y =
        meshLoopGo xSide ySide maxSamplePoints fuel u (v + 1) u v) ∧
    selectMeshInterval 0 100 0 100 6 = some (2, 3) := by
  refine ⟨?_, ?_, ?_⟩
  · rw [meshLoopGo, if_pos hcond]
  · intro htie
    rw [meshLoopGo, if_pos hcond, if_neg (by rw [htie]; exact lt_irrefl _)]
  · norm_num [selectMeshInterval, meshLoopGo]

/-- Witness for `meshLoopGo_tiebreak`: the first step on square extents. -/
theorem meshLoopGo_tiebreak_witness :
    (meshLoopGo (100 : ℚ) (100 : ℚ) 6 4 2 2 2 2 =
      if (100 : ℚ) / (2 : ℕ) > (100 : ℚ) / (2 : ℕ) then
        meshLoopGo (100 : ℚ) (100 : ℚ) 6 3 3 2 2 2
      else meshLoopGo (100 : ℚ) (100 : ℚ) 6 3 2 3 2 2) ∧
    ((100 : ℚ) / (2 : ℕ) = (100 : ℚ) / (2 : ℕ) →
      meshLoopGo (100 : ℚ) (100 : ℚ) 6 4 2 2 2 2 =
        meshLoopGo (100 : ℚ) (100 : ℚ) 6 3 2 3 2 2) ∧
    selectMeshInterval 0 100 0 100 6 = some (2, 3) :=
  meshLoopGo_tiebreak 100 100 6 3 2 2 2 2 (by norm_num)

/-! ## The sample aggregator (src lines 145-173)

`parseProbedPoints` extracts `(x, y, z)` floats from matching log lines and
groups them in a Python `dict` keyed by the exact `(x, y)` pair (insertion
ordered, hence first-seen order); `averageZOffset` then averages the z list of
every key.  The dict is modelled as an association list in insertion order;
one parsed sample is `((x, y), z) : (ℚ × ℚ) × ℚ`. -/

/-- One iteration of the grouping loop inside `parseProbedPoints`: append `z`
to the entry of `xy`, creating the entry at the end if the key is new. -/
def addProbedPoint (d : List ((ℚ × ℚ) × List ℚ)) (xy : ℚ × ℚ) (z : ℚ) :
    List ((ℚ × ℚ) × List ℚ) :=
  if d.any (fun e => e.1 = xy) then
    d.map (fun e => if e.1 = xy then (e.1, e.2 ++ [z]) else e)
  else d ++ [(xy, [z])]

/-- The grouping loop of `parseProbedPoints` over the parsed samples. -/
def groupProbedPoints (samples : List ((ℚ × ℚ) × ℚ)) : List ((ℚ × ℚ) × List ℚ) :=
  samples.foldl (fun d s => addProbedPoint d s.1 s.2) []

/-- `averageZOffset` (src lines 163-173): produce the three parallel arrays
`x`, `y`, `z` with `z` the arithmetic mean `sum(zOffsets)/len(zOffsets)`. -/
def averageZOffset (probedPoints : List ((ℚ × ℚ) × List ℚ)) :
    List ℚ × List ℚ × List ℚ :=
  (probedPoints.map (fun e => e.1.1), probedPoints.map (fun e => e.1.2),
   probedPoints.map (fun e => e.2.sum / (e.2.length : ℚ)))

/-- The aggregation pipeline applied to parsed samples (src line 219 composes
`averageZOffset` with the grouping of `parseProbedPoints`). -/
def aggregated (samples : List ((ℚ × ℚ) × ℚ)) : List ℚ × List ℚ × List ℚ :=
  averageZOffset (groupProbedPoints samples)

/-- Spec-side definition: the distinct elements of `l` in first-seen order. -/
def firstSeenDistinct (l : List (ℚ × ℚ)) : List (ℚ × ℚ) :=
  l.foldl (fun acc a => if a ∈ acc then acc else acc ++ [a]) []

theorem firstSeenDistinct_append_singleton (l : List (ℚ × ℚ)) (a : ℚ × ℚ) :
    firstSeenDistinct (l ++ [a]) =
      if a ∈ firstSeenDistinct l then firstSeenDistinct l
      else firstSeenDistinct l ++ [a] := by
  unfold firstSeenDistinct
  rw [List.foldl_append]
  rfl

theorem mem_firstSeenDistinct (l : List (ℚ × ℚ)) (a : ℚ × ℚ) :
    a ∈ firstSeenDistinct l ↔ a ∈ l := by
  induction l using List.reverseRecOn generalizing a with
  | nil => simp [firstSeenDistinct]
  | append_singleton l b ih =>
      rw [firstSeenDistinct_append_singleton]
      by_cases hb : b ∈ firstSeenDistinct l
      · rw [if_pos hb]
        have hbl : b ∈ l := (ih b).mp hb
        simp only [List.mem_append, List.mem_singleton, ih]
        constructor
        · exact Or.inl
        · rintro (h | rfl)
          · exact h
          · exact hbl
      · rw [if_neg hb]
        simp [ih]

theorem nodup_firstSeenDistinct (l : List (ℚ × ℚ)) :
    (firstSeenDistinct l).Nodup := by
  induction l using List.reverseRecOn with
  | nil => simp [firstSeenDistinct]
  | append_singleton l b ih =>
      rw [firstSeenDistinct_append_singleton]
      by_cases hb : b ∈ firstSeenDistinct l
      · rwa [if_pos hb]
      · rw [if_neg hb]
        rw [List.nodup_append_comm, List.singleton_append, List.nodup_cons]
        exact ⟨hb, ih⟩

/-- Loop invariant of the grouping fold: after processing the samples `pre`,
the keys of the association list are the distinct coordinates of `pre` in
first-seen order, and each entry holds exactly the z values of the samples of
`pre` with that coordinate, in order. -/
def GroupInv (pre : List ((ℚ × ℚ) × ℚ)) (d : List ((ℚ × ℚ) × List ℚ)) : Prop :=
  d.map Prod.fst = firstSeenDistinct (pre.map Prod.fst) ∧
  ∀ e ∈ d, e.2 = (pre.filter (fun s => s.1 = e.1)).map Prod.snd

theorem groupInv_step (pre : List ((ℚ × ℚ) × ℚ)) (d : List ((ℚ × ℚ) × List ℚ))
    (s : (ℚ × ℚ) × ℚ) (h : GroupInv pre d) :
    GroupInv (pre ++ [s]) (addProbedPoint d s.1 s.2) := by
  obtain ⟨hkeys, hvals⟩ := h
  have hmemkeys : (s.1 ∈ d.map Prod.fst) ↔ d.any (fun e => e.1 = s.1) = true := by
    constructor
    · intro hmm
      rcases List.mem_map.mp hmm with ⟨e, he, heq⟩
      exact List.any_eq_true.mpr ⟨e, he, by simpa using heq⟩
    · intro hmm
      rcases List.any_eq_true.mp hmm with ⟨e, he, heq⟩
      exact List.mem_map.mpr ⟨e, he, by simpa using heq⟩
  have hmaps : (pre ++ [s]).map Prod.fst = pre.map Prod.fst ++ [s.1] := by
    simp
  have hfilterS : ∀ k : ℚ × ℚ, k ≠ s.1 →
      [s].filter (fun s' => s'.1 = k) = [] := by
    intro k hk
    have hk' : ¬ (s.1 = k) := fun hc => hk hc.symm
    simp [List.filter_singleton, hk']
  by_cases hmem : d.any (fun e => e.1 = s.1) = true
  · rw [addProbedPoint, if_pos hmem]
    constructor
    · rw [List.map_map]
      have hcomp : (Prod.fst ∘ fun e : (ℚ × ℚ) × List ℚ =>
          if e.1 = s.1 then (e.1, e.2 ++ [s.2]) else e) = Prod.fst := by
        funext e
        by_cases he : e.1 = s.1 <;> simp [he]
      rw [hcomp, hkeys, hmaps, firstSeenDistinct_append_singleton]
      rw [if_pos]
      rw [← hkeys]
      exact hmemkeys.mpr hmem
    · intro e' he'
      rcases List.mem_map.mp he' with ⟨e, he, heq⟩
      by_cases hk : e.1 = s.1
      · rw [if_pos hk] at heq
        subst heq
        have h1 : (pre ++ [s]).filter (fun s' => s'.1 = e.1) =
            pre.filter (fun s' => s'.1 = e.1) ++ [s] := by
          rw [List.filter_append]
          congr 1
          simp [List.filter_singleton, hk.symm]
        simp only [h1, List.map_append, List.map_cons, List.map_nil]
        rw [← hvals e he]
      · rw [if_neg hk] at heq
        subst heq
        have h1 : (pre ++ [s]).filter (fun s' => s'.1 = e.1) =
            pre.filter (fun s' => s'.1 = e.1) := by
          rw [List.filter_append, hfilterS e.1 hk, List.append_nil]
        rw [h1]
        exact hvals e he
  · rw [addProbedPoint, if_neg hmem]
    have hnot : s.1 ∉ d.map Prod.fst := fun hc => hmem (hmemkeys.mp hc)
    constructor
    · rw [List.map_append, hkeys, hmaps, firstSeenDistinct_append_singleton]
      rw [if_neg (by rw [← hkeys]; exact hnot)]
      rfl
    · intro e he
      rcases List.mem_append.mp he with he | he
      · have hk : e.1 ≠ s.1 := by
          intro hc
          exact hnot (hc ▸ List.mem_map_of_mem Prod.fst he)
        have h1 : (pre ++ [s]).filter (fun s' => s'.1 = e.1) =
            pre.filter (fun s' => s'.1 = e.1) := by
          rw [List.filter_append, hfilterS e.1 hk, List.append_nil]
        rw [h1]
        exact hvals e he
      · have he' : e = (s.1, [s.2]) := by simpa using he
        subst he'
        have hpre : pre.filter (fun s' => s'.1 = (s.1, [s.2]).1) = [] := by
          rw [List.filter_eq_nil_iff]
          intro a ha
          simp only [decide_eq_true_eq]
          intro hc
          have hc2 : s.1 ∈ pre.map Prod.fst := by
            rw [← hc]
            exact List.mem_map_of_mem Prod.fst ha
          rw [← mem_firstSeenDistinct, ← hkeys] at hc2
          exact hnot hc2
        rw [List.filter_append, hpre, List.nil_append]
        simp [List.filter_singleton]

theorem groupInv_foldl (samples : List ((ℚ × ℚ) × ℚ)) :
    ∀ (pre : List ((ℚ × ℚ) × ℚ)) (d : List ((ℚ × ℚ) × List ℚ)), GroupInv pre d →
      GroupInv (pre ++ samples)
        (samples.foldl (fun d s => addProbedPoint d s.1 s.2) d) := by
  induction samples with
  | nil =>
      intro pre d h
      simpa using h
  | cons s ss ih =>
      intro pre d h
      have h2 := ih (pre ++ [s]) _ (groupInv_step pre d s h)
      simpa using h2

theorem groupProbedPoints_inv (samples : List ((ℚ × ℚ) × ℚ)) :
    GroupInv samples (groupProbedPoints samples) := by
  have h0 : GroupInv [] [] := by
    constructor
    · rfl
    · intro e he
      cases he
  have h := groupInv_foldl samples [] [] h0
  simpa [groupProbedPoints] using h

/-- C3: the aggregator returns three equal-length arrays, with exactly one
entry per distinct `(x, y)` pair (exact equality), pairs in first-seen order,
each z the arithmetic mean of the z observations at that pair; empty input
yields an empty result. -/
theorem aggregated_correct (samples : List ((ℚ × ℚ) × ℚ)) :
    (aggregated samples).1.length = (aggregated samples).2.1.length ∧
    (aggregated samples).2.1.length = (aggregated samples).2.2.length ∧
    (aggregated samples).1.zip (aggregated samples).2.1 =
      firstSeenDistinct (samples.map Prod.fst) ∧
    ((aggregated samples).1.zip (aggregated samples).2.1).Nodup ∧
    (∀ k : ℚ × ℚ, k ∈ (aggregated samples).1.zip (aggregated samples).2.1 ↔
      k ∈ samples.map Prod.fst) ∧
    (aggregated samples).2.2 = (firstSeenDistinct (samples.map Prod.fst)).map
      (fun k => ((samples.filter (fun s => s.1 = k)).map Prod.snd).sum /
        (((samples.filter (fun s => s.1 = k)).map Prod.snd).length : ℚ)) ∧
    aggregated ([] : List ((ℚ × ℚ) × ℚ)) = ([], [], []) := by
  obtain ⟨hkeys, hvals⟩ := groupProbedPoints_inv samples
  have hzip : (aggregated samples).1.zip (aggregated samples).2.1 =
      (groupProbedPoints samples).map Prod.fst := by
    show ((groupProbedPoints samples).map (fun e => e.1.1)).zip
        ((groupProbedPoints samples).map (fun e => e.1.2)) = _
    rw [List.zip_map']
  refine ⟨?_, ?_, ?_, ?_, ?_, ?_, ?_⟩
  · simp [aggregated, averageZOffset]
  · simp [aggregated, averageZOffset]
  · rw [hzip, hkeys]
  · rw [hzip, hkeys]
    exact nodup_firstSeenDistinct _
  · intro k
    rw [hzip, hkeys, mem_firstSeenDistinct]
  · show (groupProbedPoints samples).map (fun e => e.2.sum / (e.2.length : ℚ)) = _
    rw [← hkeys, List.map_map]
    apply List.map_congr_left
    intro e he
    have hv := hvals e he
    simp only [Function.comp_apply]
    rw [hv]
  · rfl

/-! ## Grid construction and the heightmap writer (src lines 176-207)

`buildMeshPoints` returns `np.meshgrid(np.linspace(xMin, xMax, xPoints),
np.linspace(yMin, yMax, yPoints))` (default `indexing='xy'`), so the lattice
has `yPoints` rows of `xPoints` nodes, node `(i, j)` at
`(xs[j], ys[i])`.  `upsampleBedMesh` evaluates the fitted surface at every
node; the surface itself is abstracted here as a function `f : ℚ × ℚ → ℚ`
(its value plays no role in the formatting claims).  `writeHeightmap` is
modelled by its structured content: the nine-value settings line and the list
of rows of 3-decimal-rounded z values. -/

/-- `np.linspace a b n`: `n` evenly spaced values from `a` to `b` inclusive
(`[a]` for `n = 1`, empty for `n = 0`). -/
def linspace (a b : ℚ) (n : ℕ) : List ℚ :=
  if n = 1 then [a]
  else (List.range n).map (fun i : ℕ => a + (b - a) * (i : ℚ) / ((n : ℚ) - 1))

theorem linspace_length (a b : ℚ) (n : ℕ) : (linspace a b n).length = n := by
  rw [linspace]
  by_cases h : n = 1
  · rw [if_pos h, h]
    rfl
  · rw [if_neg h, List.length_map, List.length_range]

/-- `buildMeshPoints` (src lines 176-179): the regular lattice of query
points, `yPoints` rows of `xPoints` nodes each (meshgrid `xy` indexing). -/
def buildMeshPoints (xMin xMax yMin yMax : ℚ) (xPoints yPoints : ℕ) :
    List (List (ℚ × ℚ)) :=
  (linspace yMin yMax yPoints).map (fun yv =>
    (linspace xMin xMax xPoints).map (fun xv => (xv, yv)))

/-- `upsampleBedMesh` (src lines 182-187) evaluates the interpolated surface
`f` at every lattice node; `f` abstracts the fitted RBF surface. -/
def upsampleBedMesh (f : ℚ × ℚ → ℚ) (xMin xMax yMin yMax : ℚ)
    (xPoints yPoints : ℕ) : List (List ℚ) :=
  (buildMeshPoints xMin xMax yMin yMax xPoints yPoints).map (fun row => row.map f)

/-- The settings line of `writeHeightmap` (src line 198):
`[xMin, xMax, yMin, yMax, -1.00, round((xMax-xMin)/(xPoints-1), 2),
round((yMax-yMin)/(yPoints-1), 2), xPoints, yPoints]`; `none` models the
`ZeroDivisionError` raised when a count equals 1. -/
def settingsLine (xMin xMax yMin yMax xPoints yPoints : ℤ) : Option (List ℚ) := do
  let xs ← pyDiv ((xMax : ℚ) - (xMin : ℚ)) ((xPoints : ℚ) - 1)
  let ys ← pyDiv ((yMax : ℚ) - (yMin : ℚ)) ((yPoints : ℚ) - 1)
  pure [(xMin : ℚ), (xMax : ℚ), (yMin : ℚ), (yMax : ℚ), -1,
        pyRound 2 xs, pyRound 2 ys, (xPoints : ℚ), (yPoints : ℚ)]

/-- `writeHeightmap` (src lines 190-207), modelled by its structured content:
the settings line followed by one line per row of the upsampled mesh, each z
rounded to 3 decimal places. -/
def writeHeightmap (xMin xMax yMin yMax xPoints yPoints : ℤ)
    (upsampledBedMesh : List (List ℚ)) : Option (List ℚ × List (List ℚ)) :=
  (settingsLine xMin xMax yMin yMax xPoints yPoints).map (fun s =>
    (s, upsampledBedMesh.map (fun row => row.map (pyRound 3))))

/-- C7: with both counts `≥ 2` the writer succeeds, its settings line carries
the `-1.00` radius sentinel and spacings `(max - min)/(count - 1)` rounded to
2 decimals, and it emits exactly `yPoints` row lines of `xPoints` entries,
each entry the z value rounded to 3 decimals. -/
theorem writeHeightmap_format (xMin xMax yMin yMax : ℤ) (xPoints yPoints : ℤ)
    (hx : 2 ≤ xPoints) (hy : 2 ≤ yPoints) (f : ℚ × ℚ → ℚ) :
    writeHeightmap xMin xMax yMin yMax xPoints yPoints
        (upsampleBedMesh f xMin xMax yMin yMax xPoints.toNat yPoints.toNat) =
      some ([(xMin : ℚ), (xMax : ℚ), (yMin : ℚ), (yMax : ℚ), -1,
             pyRound 2 (((xMax : ℚ) - (xMin : ℚ)) / ((xPoints : ℚ) - 1)),
             pyRound 2 (((yMax : ℚ) - (yMin : ℚ)) / ((yPoints : ℚ) - 1)),
             (xPoints : ℚ), (yPoints : ℚ)],
            (buildMeshPoints xMin xMax yMin yMax xPoints.toNat yPoints.toNat).map
              (fun row => row.map (fun q => pyRound 3 (f q)))) ∧
    (upsampleBedMesh f xMin xMax yMin yMax xPoints.toNat yPoints.toNat).length =
      yPoints.toNat ∧
    ∀ row ∈ upsampleBedMesh f xMin xMax yMin yMax xPoints.toNat yPoints.toNat,
      row.length = xPoints.toNat := by
  have hxq : ((xPoints : ℚ) - 1) ≠ 0 := by
    have : (2 : ℚ) ≤ (xPoints : ℚ) := by exact_mod_cast hx
    intro hc
    nlinarith
  have hyq : ((yPoints : ℚ) - 1) ≠ 0 := by
    have : (2 : ℚ) ≤ (yPoints : ℚ) := by exact_mod_cast hy
    intro hc
    nlinarith
  refine ⟨?_, ?_, ?_⟩
  · rw [writeHeightmap, settingsLine]
    rw [pyDiv, if_neg hxq, pyDiv, if_neg hyq]
    simp only [Option.bind_eq_bind, Option.some_bind, Option.pure_def,
      Option.map_some']
    congr 2
    rw [upsampleBedMesh, List.map_map]
    apply List.map_congr_left
    intro row _
    rw [Function.comp_apply, List.map_map]
    rfl
  · rw [upsampleBedMesh, List.length_map, buildMeshPoints, List.length_map,
      linspace_length]
  · intro row hrow
    rw [upsampleBedMesh] at hrow
    rcases List.mem_map.mp hrow with ⟨r, hr, rfl⟩
    rw [buildMeshPoints] at hr
    rcases List.mem_map.mp hr with ⟨yv, _, rfl⟩
    rw [List.length_map, List.length_map, linspace_length]

/-- Witness for `writeHeightmap_format`: a 2×2 grid over `[0,10]²`. -/
theorem writeHeightmap_format_witness :
    (2 ≤ (2 : ℤ)) ∧
    (writeHeightmap 0 10 0 10 2 2
        (upsampleBedMesh (fun q => q.1 + q.2) 0 10 0 10 (2 : ℤ).toNat (2 : ℤ).toNat) =
      some ([(0 : ℚ), 10, 0, 10, -1,
             pyRound 2 (((10 : ℚ) - 0) / ((2 : ℚ) - 1)),
             pyRound 2 (((10 : ℚ) - 0) / ((2 : ℚ) - 1)), 2, 2],
            (buildMeshPoints 0 10 0 10 (2 : ℤ).toNat (2 : ℤ).toNat).map
              (fun row => row.map (fun q => pyRound 3 (q.1 + q.2)))) ∧
    (upsampleBedMesh (fun q => q.1 + q.2) 0 10 0 10
        (2 : ℤ).toNat (2 : ℤ).toNat).length = (2 : ℤ).toNat ∧
    ∀ row ∈ upsampleBedMesh (fun q => q.1 + q.2) 0 10 0 10
        (2 : ℤ).toNat (2 : ℤ).toNat, row.length = (2 : ℤ).toNat) := by
  constructor
  · norm_num
  · have h := writeHeightmap_format 0 10 0 10 2 2 (by norm_num) (by norm_num)
      (fun q => q.1 + q.2)
    simpa using h

/-! ## Argument validation (src lines 20-25, 116-130)

`colonSeparatedNumbersArgType` applies `re.match('-?\d+:-?\d+', arg)`:
`re.match` anchors at the START of the string only, so trailing text is not
inspected.  Accepted arguments are later fed to
`splitIntArgs(arg) = [int(val) for val in arg.split(':')]` and unpacked into
two variables.  Python's `int(...)` strips surrounding whitespace and allows
single underscores between digits.  Arguments are modelled as `List Char`. -/

/-- `\d` of the regex / `str.isdigit` for ASCII: `'0'..'9'`. -/
def isPyDigit (c : Char) : Bool := decide ('0' ≤ c) && decide (c ≤ '9')

/-- Whitespace stripped by Python's `int()` (`str.strip()` ASCII subset). -/
def isPySpace (c : Char) : Bool :=
  decide (c = ' ') || decide (c = '\t') || decide (c = '\n') || decide (c = '\r') ||
  decide (c = Char.ofNat 11) || decide (c = Char.ofNat 12)

/-- Consume the optional leading `'-'` of `-?`. -/
def dropSign (cs : List Char) : List Char :=
  if cs.head? = some '-' then cs.tail else cs

/-- The consumed part of `-?`: `['-']` or `[]`. -/
def signPart (cs : List Char) : List Char :=
  if cs.head? = some '-' then ['-'] else []

theorem signPart_append_dropSign (cs : List Char) :
    signPart cs ++ dropSign cs = cs := by
  cases cs with
  | nil => rfl
  | cons c t =>
      by_cases h : c = '-'
      · simp [signPart, dropSign, h]
      · simp [signPart, dropSign, h]

/-- Match `-?\d+` at the start of `cs`: `some rest` leaves the unconsumed
remainder, `none` means no match (no leading digit after the optional sign).
`\d+` is greedy; since no later digit can match the following `':'`, taking
the maximal digit run is exactly the regex semantics here. -/
def matchSignedInt (cs : List Char) : Option (List Char) :=
  let body := dropSign cs
  if body.takeWhile isPyDigit = [] then none
  else some (body.dropWhile isPyDigit)

/-- `re.match('-?\d+:-?\d+', cs)` succeeds (anchored at the start only,
arbitrary trailing text allowed) — the test of
`colonSeparatedNumbersArgType`. -/
def matchesColonPairAtStart (cs : List Char) : Bool :=
  match matchSignedInt cs with
  | none => false
  | some rest =>
    match rest with
    | [] => false
    | c :: t => decide (c = ':') && (matchSignedInt t).isSome

/-- Spec-side definition: `cs` is, in its entirety, a colon-separated integer
pair (`-?\d+:-?\d+` matching the whole string). -/
def isColonSeparatedIntPair (cs : List Char) : Bool :=
  match matchSignedInt cs with
  | none => false
  | some rest =>
    match rest with
    | [] => false
    | c :: t => decide (c = ':') && decide (matchSignedInt t = some [])

/-- Digit-run tail with single underscores allowed between digits. -/
def digitsRest : List Char → Bool
  | [] => true
  | '_' :: c :: rest => isPyDigit c && digitsRest rest
  | c :: rest => isPyDigit c && digitsRest rest

/-- A nonempty digit run, with single underscores allowed between digits
(Python integer-literal grouping). -/
def digitsWithUnderscores : List Char → Bool
  | [] => false
  | c :: rest => isPyDigit c && digitsRest rest

/-- Numeric value of a digit run (underscores skipped). -/
def digitsValue (cs : List Char) : ℕ :=
  (cs.filter (fun c => c ≠ '_')).foldl (fun n c => 10 * n + (c.toNat - 48)) 0

/-- `str.strip()` of surrounding whitespace. -/
def stripSpaces (cs : List Char) : List Char :=
  ((cs.dropWhile isPySpace).reverse.dropWhile isPySpace).reverse

/-- Python `int(cs)` for a base-10 string: strip surrounding whitespace,
optional sign, digits with underscore grouping; `none` models `ValueError`. -/
def pythonInt (cs : List Char) : Option ℤ :=
  match stripSpaces cs with
  | '+' :: rest =>
      if digitsWithUnderscores rest then some (digitsValue rest : ℤ) else none
  | '-' :: rest =>
      if digitsWithUnderscores rest then some (-(digitsValue rest : ℤ)) else none
  | rest =>
      if digitsWithUnderscores rest then some (digitsValue rest : ℤ) else none

/-- Python `cs.split(':')` (no collapsing of empty fields). -/
def splitOnColon : List Char → List (List Char)
  | [] => [[]]
  | c :: rest =>
    match splitOnColon rest with
    | [] => [[c]]
    | h :: t => if c = ':' then [] :: h :: t else (c :: h) :: t

/-- `splitIntArgs` (src lines 116-117): `[int(val) for val in arg.split(':')]`;
`none` models the `ValueError` raised by the first failing `int(...)`. -/
def splitIntArgs (cs : List Char) : Option (List ℤ) :=
  (splitOnColon cs).mapM pythonInt

/-- Outcome of feeding one colon-pair argument through the program's argument
handling: `argTypeError` is `argparse.ArgumentTypeError` raised by
`colonSeparatedNumbersArgType` during `parse_args()` (before anything else
runs); `valueError`/`unpackError` are the uncaught exceptions of
`splitIntArgs` and tuple unpacking at src lines 121-127, still before any
probe-log parsing, aggregation or interpolation; `ok a b` means the program
proceeds to computation with the two parsed integers. -/
inductive ArgOutcome where
  | argTypeError
  | valueError
  | unpackError
  | ok (a b : ℤ)
deriving DecidableEq

/-- The combined handling of one `-X`/`-Y`/`-P` argument: the anchored-prefix
regex test of `colonSeparatedNumbersArgType`, then `splitIntArgs`, then the
two-variable unpacking. -/
def processColonIntArg (cs : List Char) : ArgOutcome :=
  if matchesColonPairAtStart cs then
    match splitIntArgs cs with
    | none => ArgOutcome.valueError
    | some [a, b] => ArgOutcome.ok a b
    | some _ => ArgOutcome.unpackError
  else ArgOutcome.argTypeError

/-- Point-count resolution (src lines 126-130): an explicit `-P` argument is
parsed with `splitIntArgs` and used as-is, bypassing `selectMeshInterval`;
otherwise the selector chooses the counts. -/
def resolvePointCounts (numPoints : Option (List Char))
    (xMin xMax yMin yMax maxSamplePoints : ℤ) : Option (ℤ × ℤ) :=
  match numPoints with
  | some s =>
    match processColonIntArg s with
    | ArgOutcome.ok a b => some (a, b)
    | _ => none
  | none =>
      (selectMeshInterval xMin xMax yMin yMax maxSamplePoints).map
        (fun p => ((p.1 : ℤ), (p.2 : ℤ)))

theorem isPyDigit_ne_dash {c : Char} (h : isPyDigit c = true) : c ≠ '-' := by
  intro hcc
  rw [hcc] at h
  exact absurd h (by decide)

theorem takeWhile_append_cons_of_neg (p : Char → Bool) (ds : List Char)
    (c : Char) (t : List Char) (hds : ∀ x ∈ ds, p x = true) (hc : p c = false) :
    (ds ++ c :: t).takeWhile p = ds ∧ (ds ++ c :: t).dropWhile p = c :: t := by
  induction ds with
  | nil => simp [List.takeWhile_cons, List.dropWhile_cons, hc]
  | cons d ds ih =>
      have hd : p d = true := hds d (by simp)
      have ih' := ih (fun x hx => hds x (by simp [hx]))
      simp [List.takeWhile_cons, List.dropWhile_cons, hd, ih'.1, ih'.2]

theorem dropSign_dash (t : List Char) : dropSign ('-' :: t) = t := by
  simp [dropSign]

theorem dropSign_of_digit (c : Char) (t : List Char) (h : isPyDigit c = true) :
    dropSign (c :: t) = c :: t := by
  have hc : c ≠ '-' := isPyDigit_ne_dash h
  simp [dropSign, hc]

/-- Computing `matchSignedInt` on an explicitly decomposed input: optional
sign, a nonempty digit run, then a remainder that does not start with a
digit. -/
theorem matchSignedInt_build (sgnL ds rest : List Char)
    (hsgn : sgnL = [] ∨ sgnL = ['-']) (hne : ds ≠ [])
    (hds : ∀ c ∈ ds, isPyDigit c = true)
    (hrest : rest = [] ∨ ∃ c t, rest = c :: t ∧ isPyDigit c = false) :
    matchSignedInt (sgnL ++ ds ++ rest) = some rest := by
  have hbody : dropSign ((sgnL ++ ds) ++ rest) = ds ++ rest := by
    rcases hsgn with rfl | rfl
    · rw [List.nil_append]
      cases ds with
      | nil => exact absurd rfl hne
      | cons d ds' =>
          rw [List.cons_append]
          exact dropSign_of_digit d _ (hds d (by simp))
    · rw [List.append_assoc, List.singleton_append]
      exact dropSign_dash _
  have hsplit : (ds ++ rest).takeWhile isPyDigit = ds ∧
      (ds ++ rest).dropWhile isPyDigit = rest := by
    rcases hrest with rfl | ⟨c, t, rfl, hc⟩
    · rw [List.append_nil]
      exact ⟨List.takeWhile_eq_self_iff.mpr hds, List.dropWhile_eq_nil_iff.mpr hds⟩
    · exact takeWhile_append_cons_of_neg _ ds c t hds hc
  simp only [matchSignedInt, hbody, hsplit.1, hsplit.2]
  rw [if_neg hne]

/-- Decomposing a successful `matchSignedInt`: the input starts with an
optional sign and a nonempty digit run, and the remainder does not start
with a digit. -/
theorem matchSignedInt_decomp (cs rest : List Char)
    (h : matchSignedInt cs = some rest) :
    ∃ sgnL ds, (sgnL = [] ∨ sgnL = ['-']) ∧ ds ≠ [] ∧
      (∀ c ∈ ds, isPyDigit c = true) ∧ sgnL ++ ds ++ rest = cs ∧
      (rest = [] ∨ ∃ c t, rest = c :: t ∧ isPyDigit c = false) := by
  simp only [matchSignedInt] at h
  by_cases htk : (dropSign cs).takeWhile isPyDigit = []
  · rw [if_pos htk] at h
    cases h
  · rw [if_neg htk] at h
    injection h with h
    refine ⟨signPart cs, (dropSign cs).takeWhile isPyDigit, ?_, htk,
      fun c hc => List.mem_takeWhile_imp hc, ?_, ?_⟩
    · rw [signPart]
      by_cases hh : cs.head? = some '-'
      · rw [if_pos hh]
        exact Or.inr rfl
      · rw [if_neg hh]
        exact Or.inl rfl
    · rw [← h, List.append_assoc, List.takeWhile_append_dropWhile,
        signPart_append_dropSign]
    · have h2 := List.head?_dropWhile_not isPyDigit (dropSign cs)
      rw [← h]
      cases hl : (dropSign cs).dropWhile isPyDigit with
      | nil => exact Or.inl rfl
      | cons c t =>
          rw [hl] at h2
          simp only [List.head?_cons] at h2
          exact Or.inr ⟨c, t, rfl, h2⟩

/-- A successful anchored-prefix match yields an explicit prefix of the
argument that is, in its entirety, a colon-separated integer pair. -/
theorem matchesColonPairAtStart_extract (cs : List Char)
    (h : matchesColonPairAtStart cs = true) :
    ∃ p t, p ++ t = cs ∧ isColonSeparatedIntPair p = true := by
  rw [matchesColonPairAtStart] at h
  cases h1 : matchSignedInt cs with
  | none =>
      rw [h1] at h
      simp at h
  | some rest =>
      rw [h1] at h
      cases rest with
      | nil => simp at h
      | cons c t =>
          simp only [Bool.and_eq_true, decide_eq_true_eq] at h
          obtain ⟨rfl, hs⟩ := h
          obtain ⟨r2, h2⟩ := Option.isSome_iff_exists.mp hs
          obtain ⟨sgnL₁, ds₁, hsgn₁, hne₁, hds₁, hcs, _⟩ :=
            matchSignedInt_decomp cs (':' :: t) h1
          obtain ⟨sgnL₂, ds₂, hsgn₂, hne₂, hds₂, ht, _⟩ :=
            matchSignedInt_decomp t r2 h2
          refine ⟨sgnL₁ ++ ds₁ ++ (':' :: (sgnL₂ ++ ds₂)), r2, ?_, ?_⟩
          · rw [← hcs, ← ht]
            simp [List.append_assoc]
          · have hm1 : matchSignedInt
                (sgnL₁ ++ ds₁ ++ (':' :: (sgnL₂ ++ ds₂))) =
                some (':' :: (sgnL₂ ++ ds₂)) :=
              matchSignedInt_build sgnL₁ ds₁ _ hsgn₁ hne₁ hds₁
                (Or.inr ⟨':', sgnL₂ ++ ds₂, rfl, show isPyDigit ':' = false by decide⟩)
            have hm2 : matchSignedInt (sgnL₂ ++ ds₂) = some [] := by
              have := matchSignedInt_build sgnL₂ ds₂ [] hsgn₂ hne₂ hds₂
                (Or.inl rfl)
              rwa [List.append_nil] at this
            rw [isColonSeparatedIntPair, hm1]
            simp [hm2]

/-- C9 (amended): any argument on which the program's argument handling does
not raise the immediate `ArgumentTypeError` necessarily begins with a full
colon-separated integer pair.  Contrapositively, an argument that does not
begin with such a pair is rejected by `colonSeparatedNumbersArgType` during
`parse_args()`, before any computation occurs. -/
theorem processColonIntArg_accept_hasPairStart (cs : List Char)
    (h : processColonIntArg cs ≠ ArgOutcome.argTypeError) :
    ∃ p t, p ++ t = cs ∧ isColonSeparatedIntPair p = true := by
  apply matchesColonPairAtStart_extract
  by_contra hc
  apply h
  rw [processColonIntArg, if_neg hc]

/-- Witness for `processColonIntArg_accept_hasPairStart` at `"1:2"`. -/
theorem processColonIntArg_accept_hasPairStart_witness :
    (processColonIntArg ['1', ':', '2'] ≠ ArgOutcome.argTypeError) ∧
    ∃ p t, p ++ t = ['1', ':', '2'] ∧ isColonSeparatedIntPair p = true :=
  ⟨by decide, processColonIntArg_accept_hasPairStart ['1', ':', '2'] (by decide)⟩

/-- C9 counterexample: `"1:2 "` (trailing space) is not a colon-separated
integer pair, yet the program accepts it — `re.match` only anchors at the
start, and `int("2 ")` strips the whitespace — so it is not rejected and
computation proceeds with `(1, 2)`. -/
theorem extentArg_trailing_space_accepted :
    isColonSeparatedIntPair ['1', ':', '2', ' '] = false ∧
    processColonIntArg ['1', ':', '2', ' '] = ArgOutcome.ok 1 2 := by
  decide

/-- C10: the settings line divides by `count - 1` with no guard: it is
well-defined whenever both counts are `≥ 2`, but the accepted explicit
point-count argument `"1:21"` bypasses `selectMeshInterval` and its `≥ 2`
floor, and with `xPoints = 1` the write step divides by zero and fails. -/
theorem settingsLine_count_guard (xMin xMax yMin yMax xPoints yPoints : ℤ)
    (hx : 2 ≤ xPoints) (hy : 2 ≤ yPoints) :
    (settingsLine xMin xMax yMin yMax xPoints yPoints).isSome = true ∧
    resolvePointCounts (some ['1', ':', '2', '1']) 0 100 0 100 441 =
      some (1, 21) ∧
    settingsLine 0 100 0 100 1 21 = none := by
  refine ⟨?_, by decide, ?_⟩
  · have hxq : ((xPoints : ℚ) - 1) ≠ 0 := by
      have h2 : (2 : ℚ) ≤ (xPoints : ℚ) := by exact_mod_cast hx
      intro hc
      nlinarith
    have hyq : ((yPoints : ℚ) - 1) ≠ 0 := by
      have h2 : (2 : ℚ) ≤ (yPoints : ℚ) := by exact_mod_cast hy
      intro hc
      nlinarith
    rw [settingsLine, pyDiv, if_neg hxq, pyDiv, if_neg hyq]
    rfl
  · norm_num [settingsLine, pyDiv]

/-- Witness for `settingsLine_count_guard` with both counts 2. -/
theorem settingsLine_count_guard_witness :
    (2 ≤ (2 : ℤ)) ∧
    ((settingsLine 0 100 0 100 2 2).isSome = true ∧
     resolvePointCounts (some ['1', ':', '2', '1']) 0 100 0 100 441 =
       some (1, 21) ∧
     settingsLine 0 100 0 100 1 21 = none) :=
  ⟨by norm_num, settingsLine_count_guard 0 100 0 100 2 2 (by norm_num) (by norm_num)⟩

/-! ## The RBF interpolation engine (spec §4.2)

`upsampleBedMesh` (src line 186) delegates the fit/evaluate engine to
`scipy.interpolate.Rbf(x, y, z, smooth=0)`, library code external to this
repository: only its call site is in `src/`.  The engine is therefore
modelled from the spec, which fixes the multiquadric kernel
`φ(r) = sqrt(r² + ε²)`, the shape parameter ε defaulting to the average
pairwise distance among the input points, the coefficient system `A·w = z`,
the surface `z(q) = Σ_i w_i·φ(distance(q, point_i))`, and the
`DegenerateInputError` raised for fewer than 2 distinct points before any
matrix is built.  The solver is an explicit parameter (the spec recommends
least-squares); all real-number computation is over `ℝ`. -/

noncomputable section

/-- Modelled from the spec: the Euclidean distance between two sample
locations, the argument of the radial kernel (spec §4.2 step 2). -/
def euclid (p q : ℝ × ℝ) : ℝ := Real.sqrt ((p.1 - q.1) ^ 2 + (p.2 - q.2) ^ 2)

/-- Modelled from the spec: the default shape parameter ε, "the average
pairwise distance among the N input points", computed as the mean over all
ordered pairs (the diagonal contributes zero); shown below to equal the mean
over unordered pairs. -/
def epsDefault (n : ℕ) (pts : Fin n → ℝ × ℝ) : ℝ :=
  (∑ i, ∑ j, euclid (pts i) (pts j)) / ((n : ℝ) * ((n : ℝ) - 1))

/-- Modelled from the spec: the N×N coefficient matrix
`A[i][j] = φ(distance(point_i, point_j))` with the multiquadric kernel and
default shape parameter written out in full (spec §4.2 step 3). -/
def rbfMatrix (n : ℕ) (pts : Fin n → ℝ × ℝ) : Matrix (Fin n) (Fin n) ℝ :=
  Matrix.of fun i j =>
    Real.sqrt (euclid (pts i) (pts j) ^ 2 + epsDefault n pts ^ 2)

/-- Modelled from the spec: evaluation of the fitted surface,
`z(q) = Σ_i w_i · φ(distance(q, point_i))` (spec §4.2 step 5). -/
def rbfEval (n : ℕ) (pts : Fin n → ℝ × ℝ) (w : Fin n → ℝ) (q : ℝ × ℝ) : ℝ :=
  ∑ i, w i * Real.sqrt (euclid q (pts i) ^ 2 + epsDefault n pts ^ 2)

/-- Failure taxonomy of the interpolation step (spec §7). -/
inductive InterpError where
  | degenerateInput
deriving DecidableEq

/-- Modelled from the spec: the interpolation step.  Fewer than 2 distinct
points raise `DegenerateInputError` before any matrix is built; otherwise the
weights are fitted by the supplied solver on `A·w = z` and the surface is
evaluated at every query point. -/
def interpolate (n : ℕ) (pts : Fin n → ℝ × ℝ) (zs : Fin n → ℝ)
    (solve : Matrix (Fin n) (Fin n) ℝ → (Fin n → ℝ) → (Fin n → ℝ))
    (queries : List (ℝ × ℝ)) : Except InterpError (List ℝ) :=
  if n < 2 then Except.error InterpError.degenerateInput
  else Except.ok (queries.map (rbfEval n pts (solve (rbfMatrix n pts) zs)))

/-- C1: with fewer than 2 distinct points the interpolation step returns
`DegenerateInputError`, and the result does not depend on the solver — the
coefficient system is never solved. -/
theorem interpolate_degenerate (n : ℕ) (pts : Fin n → ℝ × ℝ) (zs : Fin n → ℝ)
    (solve solve' : Matrix (Fin n) (Fin n) ℝ → (Fin n → ℝ) → (Fin n → ℝ))
    (queries : List (ℝ × ℝ)) (hn : n < 2) :
    interpolate n pts zs solve queries =
      Except.error InterpError.degenerateInput ∧
    interpolate n pts zs solve queries = interpolate n pts zs solve' queries := by
  rw [interpolate, if_pos hn, interpolate, if_pos hn]
  exact ⟨rfl, rfl⟩

/-- Witness for `interpolate_degenerate`: a single probed point. -/
theorem interpolate_degenerate_witness :
    (1 < 2) ∧
    (interpolate 1 (fun _ => ((0 : ℝ), (0 : ℝ))) (fun _ => (0 : ℝ))
        (fun _ z => z) [] = Except.error InterpError.degenerateInput ∧
      interpolate 1 (fun _ => ((0 : ℝ), (0 : ℝ))) (fun _ => (0 : ℝ))
        (fun _ z => z) [] =
      interpolate 1 (fun _ => ((0 : ℝ), (0 : ℝ))) (fun _ => (0 : ℝ))
        (fun _ _ _ => 0) []) :=
  ⟨by norm_num,
    interpolate_degenerate 1 (fun _ => ((0 : ℝ), (0 : ℝ))) (fun _ => (0 : ℝ))
      (fun _ z => z) (fun _ _ _ => 0) [] (by norm_num)⟩

/-- C2: whenever the solver returns genuine weights for `A·w = z` (as the
spec's direct/least-squares solve does for the generically nonsingular
multiquadric matrix), evaluating the fitted surface at every input sample
location reproduces the input height exactly, in particular within the 1e-6
tolerance: the fit interpolates rather than regresses. -/
theorem interpolate_exact (n : ℕ) (pts : Fin n → ℝ × ℝ) (zs : Fin n → ℝ)
    (solve : Matrix (Fin n) (Fin n) ℝ → (Fin n → ℝ) → (Fin n → ℝ))
    (hn : 2 ≤ n)
    (hsolve : (rbfMatrix n pts).mulVec (solve (rbfMatrix n pts) zs) = zs) :
    interpolate n pts zs solve (List.ofFn pts) =
      Except.ok ((List.ofFn pts).map
        (rbfEval n pts (solve (rbfMatrix n pts) zs))) ∧
    ∀ j : Fin n, |rbfEval n pts (solve (rbfMatrix n pts) zs) (pts j) - zs j| ≤
      1 / 1000000 := by
  constructor
  · rw [interpolate, if_neg (by omega)]
  · intro j
    have hmv := congrFun hsolve j
    simp only [Matrix.mulVec, Matrix.dotProduct] at hmv
    have hj : rbfEval n pts (solve (rbfMatrix n pts) zs) (pts j) = zs j := by
      rw [rbfEval, ← hmv]
      refine Finset.sum_congr rfl (fun i _ => ?_)
      rw [rbfMatrix, Matrix.of_apply, mul_comm]
    rw [hj, sub_self, abs_zero]
    norm_num

/-- Concrete 2-point instance for the interpolation-exactness witness. -/
def wpts : Fin 2 → ℝ × ℝ := fun i => if i = 0 then (0, 0) else (1, 0)

/-- Concrete heights for the witness: both `1 + √2`. -/
def wzs : Fin 2 → ℝ := fun _ => 1 + Real.sqrt 2

/-- Concrete "solver" for the witness: the constant weight vector `(1, 1)`. -/
def wsolve : Matrix (Fin 2) (Fin 2) ℝ → (Fin 2 → ℝ) → (Fin 2 → ℝ) :=
  fun _ _ _ => 1

theorem wsolve_solves :
    (rbfMatrix 2 wpts).mulVec (wsolve (rbfMatrix 2 wpts) wzs) = wzs := by
  have h00 : euclid (wpts 0) (wpts 0) = 0 := by
    simp [wpts, euclid]
  have h11 : euclid (wpts 1) (wpts 1) = 0 := by
    simp [wpts, euclid]
  have h01 : euclid (wpts 0) (wpts 1) = 1 := by
    simp only [wpts, euclid]
    norm_num
  have h10 : euclid (wpts 1) (wpts 0) = 1 := by
    simp only [wpts, euclid]
    norm_num
  have heps : epsDefault 2 wpts = 1 := by
    rw [epsDefault]
    simp only [Fin.sum_univ_two, h00, h01, h10, h11]
    norm_num
  funext j
  fin_cases j
  · simp only [Fin.zero_eta, Matrix.mulVec, Matrix.dotProduct, Fin.sum_univ_two,
      rbfMatrix, Matrix.of_apply, wsolve, wzs, heps]
    rw [h00, h01]
    norm_num [Real.sqrt_one]
  · simp only [Fin.mk_one, Matrix.mulVec, Matrix.dotProduct, Fin.sum_univ_two,
      rbfMatrix, Matrix.of_apply, wsolve, wzs, heps]
    rw [h10, h11]
    norm_num [Real.sqrt_one]
    exact add_comm _ _

/-- Witness for `interpolate_exact`: points `(0,0)` and `(1,0)`, heights
`1 + √2`, weights `(1, 1)`. -/
theorem interpolate_exact_witness :
    (2 ≤ 2) ∧
    ((rbfMatrix 2 wpts).mulVec (wsolve (rbfMatrix 2 wpts) wzs) = wzs) ∧
    (interpolate 2 wpts wzs wsolve (List.ofFn wpts) =
      Except.ok ((List.ofFn wpts).map
        (rbfEval 2 wpts (wsolve (rbfMatrix 2 wpts) wzs))) ∧
    ∀ j : Fin 2, |rbfEval 2 wpts (wsolve (rbfMatrix 2 wpts) wzs) (wpts j) -
      wzs j| ≤ 1 / 1000000) :=
  ⟨by norm_num, wsolve_solves,
    interpolate_exact 2 wpts wzs wsolve (by norm_num) wsolve_solves⟩

/-- The multiquadric kernel exactly as the spec states it:
`φ(r) = sqrt(r² + ε²)`. -/
def multiquadric (ε r : ℝ) : ℝ := Real.sqrt (r ^ 2 + ε ^ 2)

/-- The spec's shape-parameter default stated verbatim: the average of the
Euclidean distances over the unordered pairs of distinct input points. -/
def averagePairwiseDistance (n : ℕ) (pts : Fin n → ℝ × ℝ) : ℝ :=
  (∑ p ∈ Finset.univ.filter (fun p : Fin n × Fin n => p.1 < p.2),
      euclid (pts p.1) (pts p.2)) / ((n * (n - 1) / 2 : ℕ) : ℝ)

theorem euclid_comm (p q : ℝ × ℝ) : euclid p q = euclid q p := by
  rw [euclid, euclid]
  congr 1
  ring

theorem euclid_self (p : ℝ × ℝ) : euclid p p = 0 := by
  simp [euclid]

theorem epsDefault_eq_averagePairwiseDistance (n : ℕ) (pts : Fin n → ℝ × ℝ) :
    epsDefault n pts = averagePairwiseDistance n pts := by
  classical
  have hdouble : (∑ i, ∑ j, euclid (pts i) (pts j)) =
      2 * ∑ p ∈ Finset.univ.filter (fun p : Fin n × Fin n => p.1 < p.2),
        euclid (pts p.1) (pts p.2) := by
    have h1 : ∑ p ∈ (Finset.univ : Finset (Fin n × Fin n)),
        euclid (pts p.1) (pts p.2) = ∑ i, ∑ j, euclid (pts i) (pts j) := by
      rw [← Finset.univ_product_univ, Finset.sum_product]
    have h2 := Finset.sum_filter_add_sum_filter_not
      (Finset.univ : Finset (Fin n × Fin n)) (fun p => p.1 < p.2)
      (fun p => euclid (pts p.1) (pts p.2))
    have h3 := Finset.sum_filter_add_sum_filter_not
      (Finset.univ.filter (fun p : Fin n × Fin n => ¬p.1 < p.2))
      (fun p => p.2 < p.1) (fun p => euclid (pts p.1) (pts p.2))
    rw [Finset.filter_filter, Finset.filter_filter] at h3
    have h4 : ∑ p ∈ Finset.univ.filter
        (fun p : Fin n × Fin n => ¬p.1 < p.2 ∧ ¬p.2 < p.1),
        euclid (pts p.1) (pts p.2) = 0 := by
      refine Finset.sum_eq_zero (fun p hp => ?_)
      obtain ⟨h1', h2'⟩ := (Finset.mem_filter.mp hp).2
      have hpp : p.1 = p.2 := le_antisymm (not_lt.mp h2') (not_lt.mp h1')
      rw [hpp]
      exact euclid_self _
    have h5 : ∑ p ∈ Finset.univ.filter
        (fun p : Fin n × Fin n => ¬p.1 < p.2 ∧ p.2 < p.1),
        euclid (pts p.1) (pts p.2) =
        ∑ p ∈ Finset.univ.filter (fun p : Fin n × Fin n => p.1 < p.2),
          euclid (pts p.1) (pts p.2) := by
      refine Finset.sum_nbij' (fun p => (p.2, p.1)) (fun p => (p.2, p.1))
        ?_ ?_ ?_ ?_ ?_
      · intro p hp
        simp only [Finset.mem_filter, Finset.mem_univ, true_and] at hp ⊢
        exact hp.2
      · intro p hp
        simp only [Finset.mem_filter, Finset.mem_univ, true_and] at hp ⊢
        exact ⟨not_lt.mpr (le_of_lt hp), hp⟩
      · intro p _
        rfl
      · intro p _
        rfl
      · intro p _
        exact euclid_comm _ _
    rw [← h1, ← h2, ← h3, h4, h5]
    ring
  have hden : (n : ℝ) * ((n : ℝ) - 1) = 2 * ((n * (n - 1) / 2 : ℕ) : ℝ) := by
    cases n with
    | zero => simp
    | succ m =>
        have hm : m + 1 - 1 = m := by omega
        have heven : 2 ∣ (m + 1) * m := by
          rcases Nat.even_or_odd m with he | ho
          · exact (he.two_dvd).mul_left (m + 1)
          · exact ((ho.add_one).two_dvd).mul_right m
        obtain ⟨k, hk⟩ := heven
        rw [hm, hk, Nat.mul_div_cancel_left k two_pos]
        have hkr : (((m + 1) * m : ℕ) : ℝ) = 2 * (k : ℝ) := by
          exact_mod_cast congrArg (fun x : ℕ => (x : ℝ)) hk
        push_cast at hkr ⊢
        linear_combination hkr
  rw [epsDefault, averagePairwiseDistance, hdouble, hden,
    mul_div_mul_left _ _ (two_ne_zero)]

/-- C6: the interpolation engine's coefficient matrix and surface evaluation
use exactly the multiquadric kernel `φ(r) = sqrt(r² + ε²)` with the shape
parameter ε equal to the average pairwise distance among the input points —
the kernel and its default are explicit formulas of the routine, not an
opaque constant. -/
theorem rbf_uses_multiquadric_with_avg_distance (n : ℕ) (pts : Fin n → ℝ × ℝ)
    (w : Fin n → ℝ) (q : ℝ × ℝ) :
    (∀ i j, rbfMatrix n pts i j =
      multiquadric (averagePairwiseDistance n pts) (euclid (pts i) (pts j))) ∧
    rbfEval n pts w q =
      ∑ i, w i * multiquadric (averagePairwiseDistance n pts) (euclid q (pts i)) := by
  have he := epsDefault_eq_averagePairwiseDistance n pts
  constructor
  · intro i j
    rw [rbfMatrix, Matrix.of_apply, multiquadric, he]
  · rw [rbfEval]
    refine Finset.sum_congr rfl (fun i _ => ?_)
    rw [multiquadric, he]

end

end MeshLevel
